import Mathlib

/-!
Verification of `linux/batocera/dedupe_roms.py` against its specification.

Shallow embedding conventions:
* Python integers are `Nat` (all quantities here are non-negative: years,
  region priorities, byte sizes, generation ranks).
* Python dicts (insertion ordered) are association lists; Python lists are
  `List`; records (`dict`s used as structs) are Lean structures.
* Filesystem state is passed explicitly (`FS`); reading directory trees is
  modelled by taking the walk result as input data.
* The few regular expressions of the source are implemented directly as
  character-list scanners with the exact matching semantics the source
  relies on (leftmost match, greediness or non-greediness as written,
  IGNORECASE where given, `.` not matching a newline).  The scanners use a
  structural fuel argument that is always instantiated with more than the
  length of the scanned list, which is an upper bound on the number of
  scanning steps.
-/

set_option maxRecDepth 4000

namespace DedupeRoms

/-! ### Character and string helpers (Python semantics, ASCII range) -/

/-- The whitespace class of Python `str.strip` and of the regex class `\s`
(ASCII range): space, tab, newline, carriage return, vertical tab, form feed. -/
def isPySpace (c : Char) : Bool :=
  c == ' ' || c == '\t' || c == '\n' || c == '\r' || c == Char.ofNat 11 || c == Char.ofNat 12

/-- The word-character class of the regex classes `\w`/`\d` (ASCII range):
letters, digits and underscore. -/
def isWordChar (c : Char) : Bool :=
  c.isAlphanum || c == '_'

/-- Python `str.lower` (ASCII range). -/
def pyLower (s : String) : String :=
  String.mk (s.toList.map Char.toLower)

/-- Does `needle` occur at the start of `haystack`? (used to implement the
Python substring test). -/
def startsWithChars (needle : List Char) : List Char → Bool
  | [] => needle.isEmpty
  | c :: t =>
    match needle with
    | [] => true
    | n :: ns => n == c && startsWithChars ns t

/-- Does `needle` occur at the start of `haystack`, comparing characters
case-insensitively (regex IGNORECASE, ASCII range)? -/
def ciStartsWith (needle : List Char) : List Char → Bool
  | [] => needle.isEmpty
  | c :: t =>
    match needle with
    | [] => true
    | n :: ns => n.toLower == c.toLower && ciStartsWith ns t

/-- Python `needle in haystack` (substring containment). -/
def containsChars (needle : List Char) : List Char → Bool
  | [] => startsWithChars needle []
  | c :: t => startsWithChars needle (c :: t) || containsChars needle t

/-- Python `sub in s` on strings. -/
def strContains (s sub : String) : Bool :=
  containsChars sub.toList s.toList

/-- Python `s.endswith(suf)`. -/
def endsWithChars (suf : List Char) (s : List Char) : Bool :=
  startsWithChars suf.reverse s.reverse

/-- Python `str.strip()`: drop leading and trailing whitespace. -/
def stripChars (l : List Char) : List Char :=
  ((l.dropWhile isPySpace).reverse.dropWhile isPySpace).reverse

/-- Python `str.strip()` on strings. -/
def pyStrip (s : String) : String :=
  String.mk (stripChars s.toList)

/-- `os.path.splitext(filename)[0]`: the filename with its extension removed.
The extension starts at the last dot, except that dots at the very start of
the name never begin an extension (CPython `genericpath._splitext`; the
inputs here contain no path separator). -/
def splitextRoot (s : String) : String :=
  let cs := s.toList
  let n := cs.length
  let idx := (List.range n).filter (fun i =>
    cs.getD i ' ' == '.' && decide (∃ j < i, cs.getD j ' ' ≠ '.'))
  match idx.getLast? with
  | some i => String.mk (cs.take i)
  | none => s

/-! ### The regex scanners used by `normalize_game_name` and `find_roms` -/

/-- Length of the maximal run of `\s` characters at the head (the greedy
`\s*`). -/
def wsRun : List Char → Nat
  | [] => 0
  | c :: t => if isPySpace c then wsRun t + 1 else 0

/-- Length of the maximal run of `\w` characters at the head (the greedy
`[\w\d]+` body). -/
def wordRun : List Char → Nat
  | [] => 0
  | c :: t => if isWordChar c then wordRun t + 1 else 0

/-- Length of the maximal run of non-newline characters at the head (the
greedy `.*`, since `.` does not match a newline). -/
def nlFreeRun : List Char → Nat
  | [] => 0
  | c :: t => if c == '\n' then 0 else nlFreeRun t + 1

/-- The keyword alternation `(?:disc|disk|cd)` under IGNORECASE, returning
the number of characters it consumes.  The alternatives are tried in the
written order; no later alternative can succeed where an earlier one
matched, so no cross-alternative backtracking arises. -/
def kwMatch (cs : List Char) : Option Nat :=
  if ciStartsWith "disc".toList cs then some 4
  else if ciStartsWith "disk".toList cs then some 4
  else if ciStartsWith "cd".toList cs then some 2
  else none

/-- Resolve the tail `\s*[\) \]]` of the disc pattern at `cs`.  The greedy
`\s*` first takes the whole whitespace run; the closing class contains
`')'`, `' '` and `']'`, so on failure the engine backtracks the run one
character at a time, accepting a literal space as the closing character.
Returns the total number of characters consumed. -/
def closeBack (cs : List Char) : Nat → Option Nat
  | 0 => none
  | m + 1 => if cs.getD m ' ' == ' ' then some (m + 1) else closeBack cs m

/-- See `closeBack`; tries the full whitespace run first. -/
def closeLen (cs : List Char) : Option Nat :=
  let w := wsRun cs
  match (cs.drop w).head? with
  | some c => if c == ')' || c == ']' then some (w + 1) else closeBack cs w
  | none => closeBack cs w

/-- Match of `[\(\[]\s*(?:disc|disk|cd)\s*[\w\d]+\s*[\) \]]` (IGNORECASE)
anchored at the head of `cs`; returns the length of the (greedy) match. -/
def matchDisc (cs : List Char) : Option Nat :=
  match cs with
  | [] => none
  | c :: rest =>
    if c == '(' || c == '[' then
      let w1 := wsRun rest
      match kwMatch (rest.drop w1) with
      | none => none
      | some k =>
        let afterKw := rest.drop (w1 + k)
        let w2 := wsRun afterKw
        let afterW2 := afterKw.drop w2
        let n := wordRun afterW2
        if n == 0 then none
        else
          match closeLen (afterW2.drop n) with
          | none => none
          | some cl => some (1 + w1 + k + w2 + n + cl)
    else none

/-- `re.findall` for the disc pattern: leftmost non-overlapping matches,
scanning forward one position on failure and past the match on success.
Every match is at least one character long, so `fuel > cs.length` steps
suffice. -/
def findAllDisc : Nat → List Char → List (List Char)
  | 0, _ => []
  | _ + 1, [] => []
  | fuel + 1, c :: cs =>
    match matchDisc (c :: cs) with
    | some n => (c :: cs).take n :: findAllDisc fuel ((c :: cs).drop n)
    | none => findAllDisc fuel cs

/-- The tail `\s(?i:mode)\)` of the mode pattern, tested at offset `j` of
`rest`. -/
def modeTailAt (rest : List Char) (j : Nat) : Bool :=
  match rest.drop j with
  | w :: m1 :: m2 :: m3 :: m4 :: cp :: _ =>
    isPySpace w && m1.toLower == 'm' && m2.toLower == 'o' &&
      m3.toLower == 'd' && m4.toLower == 'e' && cp == ')'
  | _ => false

/-- Greedy search for the largest `.*` length `j` at which the mode tail
matches, scanning from the upper bound downwards. -/
def modeSearch (rest : List Char) : Nat → Option Nat
  | 0 => if modeTailAt rest 0 then some 0 else none
  | j + 1 => if modeTailAt rest (j + 1) then some (j + 1) else modeSearch rest j

/-- Match of `\(.*\sMode\)` (IGNORECASE) anchored at the head of `cs`;
returns the length of the (greedy) match.  `.*` cannot cross a newline. -/
def matchMode (cs : List Char) : Option Nat :=
  match cs with
  | [] => none
  | c :: rest =>
    if c == '(' then
      match modeSearch rest (nlFreeRun rest) with
      | some j => some (1 + j + 6)
      | none => none
    else none

/-- `re.findall` for the mode pattern (see `findAllDisc`). -/
def findAllMode : Nat → List Char → List (List Char)
  | 0, _ => []
  | _ + 1, [] => []
  | fuel + 1, c :: cs =>
    match matchMode (c :: cs) with
    | some n => (c :: cs).take n :: findAllMode fuel ((c :: cs).drop n)
    | none => findAllMode fuel cs

/-- Python `str.replace(old, new)`: replace every non-overlapping occurrence
of `old`, left to right.  All uses in this file have `old` non-empty; for an
empty `old` the function returns `s` unchanged (CPython would interleave
`new` everywhere, a case the source never reaches). -/
def replaceAll : Nat → List Char → List Char → List Char → List Char
  | 0, s, _, _ => s
  | _ + 1, [], _, _ => []
  | fuel + 1, c :: cs, old, new =>
    if !old.isEmpty && startsWithChars old (c :: cs) then
      new ++ replaceAll fuel ((c :: cs).drop old.length) old new
    else
      c :: replaceAll fuel cs old new

/-- Index of the first closing character `close` in `cs`, provided no
newline stands before it (the body `.*?` cannot cross a newline). -/
def closeIdx (close : Char) : List Char → Option Nat
  | [] => none
  | x :: xs =>
    if x == close then some 0
    else if x == '\n' then none
    else (closeIdx close xs).map (· + 1)

/-- `re.sub(r'\[.*?\]', '', name)` and `re.sub(r'\(.*?\)', '', name)`:
delete every leftmost-shortest delimited block, continuing after the
deleted block; an opener with no closer is kept. -/
def subDelim : Nat → Char → Char → List Char → List Char
  | 0, _, _, s => s
  | _ + 1, _, _, [] => []
  | fuel + 1, o, c, x :: xs =>
    if x == o then
      match closeIdx c xs with
      | some i => subDelim fuel o c (xs.drop (i + 1))
      | none => x :: subDelim fuel o c xs
    else x :: subDelim fuel o c xs

/-- Python `str.format(*args)` restricted to `'{}'` placeholders, which is
all the source produces: each `'{}'` is replaced by the next argument.  If
the arguments run out, remaining placeholders are left in place (CPython
raises `IndexError` there; the source only reaches `format` with one
argument per placeholder).  Braces coming from the original filename are
passed through unchanged (CPython would reject them; no claim depends on
such names). -/
def formatSub : Nat → List Char → List (List Char) → List Char
  | 0, s, _ => s
  | _ + 1, [], _ => []
  | fuel + 1, '{' :: '}' :: rest, a :: args => a ++ formatSub fuel rest args
  | fuel + 1, '{' :: '}' :: rest, [] => '{' :: '}' :: formatSub fuel rest []
  | fuel + 1, c :: cs, args => c :: formatSub fuel cs args

/-! ### `normalize_game_name` (source lines 180-217) -/

/-- The placeholder literal `'---PRESERVED---'`. -/
def placeholder : List Char := "---PRESERVED---".toList

/-- `normalize_game_name(filename)`: strip the extension; find and stash the
disc/mode markers (each found marker text is replaced, in all its
occurrences, by the placeholder); delete the remaining `[...]` and `(...)`
blocks; restore the stashed markers in order via `format`; strip the ends.
Note the source does not collapse interior whitespace runs. -/
def normalize_game_name (filename : String) : String :=
  let name0 := (splitextRoot filename).toList
  let matchesDisc := findAllDisc (name0.length + 1) name0
  let name1 := matchesDisc.foldl
    (fun n m => replaceAll (n.length + 1) n m placeholder) name0
  let matchesMode := findAllMode (name1.length + 1) name1
  let name2 := matchesMode.foldl
    (fun n m => replaceAll (n.length + 1) n m placeholder) name1
  let preserved := matchesDisc ++ matchesMode
  let name3 := subDelim (name2.length + 1) '[' ']' name2
  let name4 := subDelim (name3.length + 1) '(' ')' name3
  let name5 :=
    if preserved.isEmpty then name4
    else
      let withSlots := replaceAll (name4.length + 1) name4 placeholder ['{', '}']
      formatSub (withSlots.length + 1) withSlots preserved
  pyStrip (String.mk name5)

/-! ### `get_region_priority` (source lines 220-246) -/

/-- `get_region_priority(filename)`: case-insensitive substring match of the
parenthesised region tags against the filename, in fixed order; lower is
higher priority. -/
def get_region_priority (filename : String) : Nat :=
  let filename_lower := pyLower filename
  if ["(europe)", "(en,fr,de)", "(world)"].any (fun tag => strContains filename_lower tag) then 1
  else if ["(usa)", "(us)"].any (fun tag => strContains filename_lower tag) then 2
  else if ["(japan)", "(jp)", "(asia)", "(ko)", "(ch)"].any (fun tag => strContains filename_lower tag) then 4
  else 3

/-- `re.search(r'\((\d{4})\)', file)`: the first position where an opening
parenthesis is followed by exactly four digits and a closing parenthesis;
the year value, or 0 when absent (source lines 280-281). -/
def extractYear : Nat → List Char → Nat
  | 0, _ => 0
  | _ + 1, [] => 0
  | fuel + 1, c :: rest =>
    if c == '(' then
      match rest with
      | d1 :: d2 :: d3 :: d4 :: cp :: _ =>
        if d1.isDigit && d2.isDigit && d3.isDigit && d4.isDigit && cp == ')' then
          (((d1.toNat - 48) * 10 + (d2.toNat - 48)) * 10 + (d3.toNat - 48)) * 10 + (d4.toNat - 48)
        else extractYear fuel rest
      | _ => extractYear fuel rest
    else extractYear fuel rest

/-- Year of a filename (`year_match` block of `find_roms`). -/
def yearOf (file : String) : Nat :=
  extractYear (file.toList.length + 1) file.toList

/-! ### Knowledge base (source lines 59-153) -/

/-- The `SYSTEM_GENERATIONS` table, as an insertion-ordered association
list (its keys are distinct, so lookup order is irrelevant). -/
def SYSTEM_GENERATIONS : List (String × Nat) := [
  ("nes", 3), ("famicom", 3), ("mastersystem", 3), ("mark3", 3),
  ("sg-1000", 3), ("atari7800", 3),
  ("megadrive", 4), ("genesis", 4), ("snes", 4), ("sfc", 4), ("superfamicom", 4),
  ("pcengine", 4), ("tg16", 4), ("neogeo", 4), ("segacd", 4),
  ("amigacd32", 4), ("cdi", 4),
  ("psx", 5), ("n64", 5), ("saturn", 5), ("dreamcast", 5), ("3do", 5),
  ("jaguar", 5), ("pcfx", 5), ("sega32x", 5), ("virtualboy", 5),
  ("ps2", 6), ("gc", 6), ("gamecube", 6), ("xbox", 6),
  ("wii", 7), ("ps3", 7), ("xbox360", 7),
  ("wiiu", 8), ("ps4", 8), ("switch", 8),
  ("mame", 4), ("fbneo", 4),
  ("atari2600", 2), ("atari5200", 2), ("intellivision", 2), ("colecovision", 2),
  ("channelf", 1), ("odyssey2", 1), ("videopac", 1), ("vectrex", 2),
  ("gameboy", 3), ("gamegear", 4), ("lynx", 4), ("atarilynx", 4),
  ("gbc", 5), ("ngp", 5), ("ngpc", 5), ("neogeopocketcolor", 5),
  ("wonderswan", 5), ("wswan", 5), ("wonderswancolor", 5), ("wswanc", 5),
  ("gba", 6), ("psp", 7), ("nds", 7), ("3ds", 8), ("psvita", 8),
  ("gamepock", 3), ("supervision", 4), ("gamate", 4), ("gamecom", 5)]

/-- `SYSTEM_GENERATIONS.get(system, 0)`: systems absent from the table rank 0. -/
def genOf (system : String) : Nat :=
  ((SYSTEM_GENERATIONS.find? (fun p => p.1 == system)).map (fun p => p.2)).getD 0

/-- The `HANDHELD_SYSTEMS` set. -/
def HANDHELD_SYSTEMS : List String :=
  ["gameboy", "gb", "gamegear", "lynx", "atarilynx", "gbc", "ngp", "ngpc",
   "neogeopocketcolor", "wonderswan", "wswan", "wonderswancolor", "wswanc",
   "gba", "psp", "nds", "3ds", "n3ds", "psvita", "gamepock", "supervision",
   "gamate", "gamecom", "pokemini", "vsmile"]

/-! ### The `FileRecord` data model (the per-file dict built in `find_roms`) -/

/-- One record of `find_roms` (source lines 283-290). -/
structure Rom where
  path : String
  system : String
  filename : String
  year : Nat
  region_priority : Nat
  size : Nat
deriving DecidableEq

/-! ### `find_best_rom` (source lines 294-333) -/

/-- The loop-body comparison of `find_best_rom`: does `competitor` replace
the current `winner`?  Rule 1 generation (higher wins), rule 2 year (higher
wins), rule 3 region priority (lower wins), rule 4 size (smaller wins). -/
def betterThan (competitor winner : Rom) : Bool :=
  let winner_gen := genOf winner.system
  let competitor_gen := genOf competitor.system
  if winner_gen ≠ competitor_gen then
    decide (competitor_gen > winner_gen)
  else if competitor.year > winner.year then true
  else if competitor.year = winner.year then
    if competitor.region_priority < winner.region_priority then true
    else if competitor.region_priority = winner.region_priority then
      decide (competitor.size < winner.size)
    else false
  else false

/-- `find_best_rom(rom_list)`: the first element is the initial winner and
each later element replaces it exactly when `betterThan` holds. -/
def find_best_rom : List Rom → Option Rom
  | [] => none
  | w :: rest =>
    some (rest.foldl (fun winner competitor =>
      if betterThan competitor winner then competitor else winner) w)

/-! ### `resolve_duplicates` (source lines 336-422) -/

/-- The MAME/FBNeo override (source lines 355-381): take the first record
of system `mame` and the first of system `fbneo`; if both exist, FBNeo wins
unless FBNeo is explicitly non-English (priority 4) while MAME is not; the
loser is moved and removed (`list.remove`, first occurrence).  Returns the
remaining candidates and the records moved by this step. -/
def mameFbneoStep (candidates : List Rom) : List Rom × List Rom :=
  match candidates.find? (fun r => r.system == "mame"),
        candidates.find? (fun r => r.system == "fbneo") with
  | some mame_rom, some fbneo_rom =>
    if fbneo_rom.region_priority = 4 ∧ mame_rom.region_priority < 4 then
      (candidates.erase fbneo_rom, [fbneo_rom])
    else
      (candidates.erase mame_rom, [mame_rom])
  | _, _ => (candidates, [])

/-- The `kept_roms` computation (source lines 387-414): when handheld and
console versions coexist and the configuration keeps both, resolve the two
partitions separately; otherwise resolve the single pool.  A `None` result
of `find_best_rom` contributes nothing (Python truthiness test). -/
def keptCalc (keepBoth : Bool) (candidates : List Rom) : List Rom :=
  let handhelds := candidates.filter (fun r => HANDHELD_SYSTEMS.contains r.system)
  let consoles := candidates.filter (fun r => !(HANDHELD_SYSTEMS.contains r.system))
  if !handhelds.isEmpty && !consoles.isEmpty && keepBoth then
    (find_best_rom handhelds).toList ++ (find_best_rom consoles).toList
  else
    (find_best_rom candidates).toList

/-- Outcome of resolving one title group: the records kept in place and the
records passed to `move_duplicate`, in move order. -/
structure ResolutionOutcome where
  kept : List Rom
  moved : List Rom
deriving DecidableEq

/-- Resolution of one group of `resolve_duplicates`: the MAME/FBNeo
override first; if at most one candidate remains the group is done (the
remainder is kept); otherwise the kept set is `keptCalc` and every
candidate not in it is moved (source lines 353-422). -/
def resolve_group (keepBoth : Bool) (roms : List Rom) : ResolutionOutcome :=
  let step := mameFbneoStep roms
  if step.1.length ≤ 1 then { kept := step.1, moved := step.2 }
  else
    { kept := keptCalc keepBoth step.1,
      moved := step.2 ++ step.1.filter (fun c => !((keptCalc keepBoth step.1).contains c)) }

/-- `resolve_duplicates` over all groups: groups of size at most one are
skipped; the moved records of the others are concatenated in group order. -/
def resolve_duplicates (keepBoth : Bool) :
    List (String × List Rom) → List Rom
  | [] => []
  | (_, roms) :: rest =>
    (if roms.length ≤ 1 then [] else (resolve_group keepBoth roms).moved)
      ++ resolve_duplicates keepBoth rest

/-! ### Specification-side ranking order (claim C1 wording)

The claim ranks candidates by the strict precedence: generation rank
(higher wins, absent systems rank 0), then release year (higher wins),
then region priority (lower wins), then file size (smaller wins). -/

/-- The four comparison axes of a record, in the claimed precedence order. -/
def keyOf (r : Rom) : Nat × Nat × Nat × Nat :=
  (genOf r.system, r.year, r.region_priority, r.size)

/-- Strict lexicographic comparison of the four axes: higher generation
wins, then higher year, then lower region priority, then smaller size. -/
def keyLtB (a b : Nat × Nat × Nat × Nat) : Bool :=
  if a.1 ≠ b.1 then decide (a.1 > b.1)
  else if a.2.1 ≠ b.2.1 then decide (a.2.1 > b.2.1)
  else if a.2.2.1 ≠ b.2.2.1 then decide (a.2.2.1 < b.2.2.1)
  else decide (a.2.2.2 < b.2.2.2)

/-- `specPrecedes a b`: `a` strictly precedes (beats) `b` in the claimed
generation/year/region/size order. -/
def specPrecedes (a b : Rom) : Bool :=
  keyLtB (keyOf a) (keyOf b)

theorem keyLtB_iff (a b : Nat × Nat × Nat × Nat) :
    keyLtB a b = true ↔
      (a.1 > b.1 ∨ (a.1 = b.1 ∧ (a.2.1 > b.2.1 ∨ (a.2.1 = b.2.1 ∧
        (a.2.2.1 < b.2.2.1 ∨ (a.2.2.1 = b.2.2.1 ∧ a.2.2.2 < b.2.2.2)))))) := by
  obtain ⟨g1, y1, r1, s1⟩ := a
  obtain ⟨g2, y2, r2, s2⟩ := b
  simp only [keyLtB]
  split_ifs <;> simp_all

theorem keyLtB_trans {a b c : Nat × Nat × Nat × Nat}
    (hab : keyLtB a b = true) (hbc : keyLtB b c = true) : keyLtB a c = true := by
  rw [keyLtB_iff] at *
  omega

theorem keyLtB_asymm {a b : Nat × Nat × Nat × Nat}
    (hab : keyLtB a b = true) : keyLtB b a = false := by
  rw [← Bool.not_eq_true]
  rw [keyLtB_iff] at *
  omega

theorem keyLtB_total {a b : Nat × Nat × Nat × Nat}
    (hab : keyLtB a b = false) (hba : keyLtB b a = false) : a = b := by
  rw [← Bool.not_eq_true] at hab hba
  rw [keyLtB_iff] at hab hba
  obtain ⟨g1, y1, r1, s1⟩ := a
  obtain ⟨g2, y2, r2, s2⟩ := b
  simp_all only [Prod.mk.injEq]
  omega

/-- The loop comparison of the source agrees with the claimed order. -/
theorem betterThan_iff (c w : Rom) :
    betterThan c w = true ↔ keyLtB (keyOf c) (keyOf w) = true := by
  rw [keyLtB_iff]
  simp only [betterThan, keyOf]
  split_ifs <;> simp_all
  all_goals omega

theorem betterThan_eq_specPrecedes (c w : Rom) :
    betterThan c w = specPrecedes c w := by
  have h1 := betterThan_iff c w
  simp only [specPrecedes]
  cases hb : betterThan c w <;> cases hs : keyLtB (keyOf c) (keyOf w) <;> simp_all

/-- Congruence on ties: records with equal keys compare identically. -/
theorem specPrecedes_congr_left {a b : Rom} (h : keyOf a = keyOf b) (x : Rom) :
    specPrecedes a x = specPrecedes b x ∧ specPrecedes x a = specPrecedes x b := by
  simp [specPrecedes, h]

/-- The fold of `find_best_rom`, named for the proofs below. -/
def pickBest (w : Rom) (l : List Rom) : Rom :=
  l.foldl (fun winner competitor =>
    if betterThan competitor winner then competitor else winner) w

theorem find_best_rom_cons (w : Rom) (t : List Rom) :
    find_best_rom (w :: t) = some (pickBest w t) := rfl

theorem specPrecedes_trans {a b c : Rom}
    (hab : specPrecedes a b = true) (hbc : specPrecedes b c = true) :
    specPrecedes a c = true :=
  keyLtB_trans hab hbc

theorem specPrecedes_key_total {a b : Rom}
    (hab : specPrecedes a b = false) (hba : specPrecedes b a = false) :
    keyOf a = keyOf b :=
  keyLtB_total hab hba

/-- Characterisation of the `find_best_rom` fold: the result splits the
pool as `l1 ++ result :: l2`, strictly precedes everything before it, and
is not strictly preceded by anything after it. -/
theorem pickBest_split (l : List Rom) : ∀ w : Rom,
    ∃ l1 l2,
      w :: l = l1 ++ pickBest w l :: l2 ∧
      (∀ x ∈ l1, specPrecedes (pickBest w l) x = true) ∧
      (∀ x ∈ l2, specPrecedes x (pickBest w l) = false) := by
  induction l with
  | nil =>
    intro w
    exact ⟨[], [], rfl, by simp, by simp⟩
  | cons c t ih =>
    intro w
    by_cases hc : betterThan c w = true
    · have hstep : pickBest w (c :: t) = pickBest c t := by
        simp [pickBest, hc]
      have hcw : specPrecedes c w = true := by
        rw [← betterThan_eq_specPrecedes]; exact hc
      obtain ⟨l1, l2, heq, h1, h2⟩ := ih c
      rw [hstep]
      cases l1 with
      | nil =>
        simp only [List.nil_append, List.cons.injEq] at heq
        obtain ⟨hc1, ht⟩ := heq
        refine ⟨[w], l2, ?_, ?_, h2⟩
        · rw [List.singleton_append, ← hc1, ← ht]
        · intro x hx
          simp only [List.mem_singleton] at hx
          rw [hx, ← hc1]
          exact hcw
      | cons y l1t =>
        simp only [List.cons_append, List.cons.injEq] at heq
        obtain ⟨hy, ht⟩ := heq
        subst hy
        have hrc : specPrecedes (pickBest c t) c = true := h1 c (by simp)
        refine ⟨w :: c :: l1t, l2, by rw [List.cons_append, List.cons_append, ← ht], ?_, h2⟩
        intro x hx
        rcases List.mem_cons.mp hx with hxw | hx2
        · rw [hxw]
          exact specPrecedes_trans hrc hcw
        · exact h1 x hx2
    · have hstep : pickBest w (c :: t) = pickBest w t := by
        simp [pickBest, hc]
      have hcw : specPrecedes c w = false := by
        rw [← betterThan_eq_specPrecedes]
        simpa using hc
      obtain ⟨l1, l2, heq, h1, h2⟩ := ih w
      rw [hstep]
      cases l1 with
      | nil =>
        simp only [List.nil_append, List.cons.injEq] at heq
        obtain ⟨hw1, ht⟩ := heq
        refine ⟨[], c :: l2, ?_, by simp, ?_⟩
        · rw [List.nil_append, ← hw1, ← ht]
        · intro x hx
          rcases List.mem_cons.mp hx with hxc | hx2
          · rw [hxc, ← hw1]
            exact hcw
          · exact h2 x hx2
      | cons y l1t =>
        simp only [List.cons_append, List.cons.injEq] at heq
        obtain ⟨hy, ht⟩ := heq
        subst hy
        have hrw : specPrecedes (pickBest w t) w = true := h1 w (by simp)
        refine ⟨w :: c :: l1t, l2, by rw [List.cons_append, List.cons_append, ← ht], ?_, h2⟩
        intro x hx
        rcases List.mem_cons.mp hx with hxw | hx2
        · rw [hxw]
          exact hrw
        · rcases List.mem_cons.mp hx2 with hxc | hx3
          · rw [hxc]
            -- r strictly precedes w; c does not precede w, so either w
            -- precedes c (then chain) or the keys of c and w tie.
            cases hwc : specPrecedes w c with
            | true => exact specPrecedes_trans hrw hwc
            | false =>
              have hkey : keyOf c = keyOf w := specPrecedes_key_total hcw hwc
              show keyLtB (keyOf (pickBest w t)) (keyOf c) = true
              rw [hkey]
              exact hrw
          · exact h1 x (List.mem_cons_of_mem w hx3)

/-- Claim C1: for every non-empty pool, `find_best_rom` returns the single
winner of the strict precedence generation rank (higher wins, systems
absent from `SYSTEM_GENERATIONS` ranked 0), then release year (higher
wins), then region priority (lower wins), then file size (smaller wins);
when all four axes tie, the first-encountered candidate in pool order is
retained: the pool splits as `l1 ++ r :: l2` where `r` strictly precedes
every earlier candidate and no candidate at all strictly precedes `r`. -/
theorem find_best_rom_first_optimal (pool : List Rom) (h : pool ≠ []) :
    ∃ r l1 l2,
      find_best_rom pool = some r ∧
      pool = l1 ++ r :: l2 ∧
      (∀ x ∈ l1, specPrecedes r x = true) ∧
      (∀ x ∈ l2, specPrecedes x r = false) ∧
      (∀ x ∈ pool, specPrecedes x r = false) := by
  obtain ⟨w, t, rfl⟩ := List.exists_cons_of_ne_nil h
  obtain ⟨l1, l2, heq, h1, h2⟩ := pickBest_split t w
  refine ⟨pickBest w t, l1, l2, find_best_rom_cons w t, heq, h1, h2, ?_⟩
  intro x hx
  rw [heq] at hx
  rcases List.mem_append.mp hx with hx1 | hx2
  · exact keyLtB_asymm (h1 x hx1)
  · rcases List.mem_cons.mp hx2 with hxr | hx3
    · rw [hxr]
      show keyLtB (keyOf (pickBest w t)) (keyOf (pickBest w t)) = false
      rw [← Bool.not_eq_true, keyLtB_iff]
      omega
    · exact h2 x hx3

/-- Witness for claim C1 at a concrete two-record pool. -/
theorem find_best_rom_first_optimal_witness :
    ∃ r l1 l2,
      find_best_rom
        [{ path := "roms/snes/Game (Japan).sfc", system := "snes",
           filename := "Game (Japan).sfc", year := 0, region_priority := 4, size := 100 },
         { path := "roms/snes/Game (USA).sfc", system := "snes",
           filename := "Game (USA).sfc", year := 0, region_priority := 2, size := 100 }] = some r ∧
      [{ path := "roms/snes/Game (Japan).sfc", system := "snes",
         filename := "Game (Japan).sfc", year := 0, region_priority := 4, size := 100 },
       { path := "roms/snes/Game (USA).sfc", system := "snes",
         filename := "Game (USA).sfc", year := 0, region_priority := 2, size := 100 }] = l1 ++ r :: l2 ∧
      (∀ x ∈ l1, specPrecedes r x = true) ∧
      (∀ x ∈ l2, specPrecedes x r = false) ∧
      (∀ x ∈ [{ path := "roms/snes/Game (Japan).sfc", system := "snes",
                filename := "Game (Japan).sfc", year := 0, region_priority := 4, size := 100 },
              { path := "roms/snes/Game (USA).sfc", system := "snes",
                filename := "Game (USA).sfc", year := 0, region_priority := 2, size := 100 }],
        specPrecedes x r = false) :=
  find_best_rom_first_optimal _ (by decide)

/-! ### Claim C4: region priority -/

/-- Region priority as worded by claim C4: case-insensitive substring
match of the BARE tags (no parentheses) in fixed order.  This is the
claim-side definition, to be compared against `get_region_priority`. -/
def region_priority_bare_tags (filename : String) : Nat :=
  let filename_lower := pyLower filename
  if ["europe", "en,fr,de", "world"].any (fun tag => strContains filename_lower tag) then 1
  else if ["usa", "us"].any (fun tag => strContains filename_lower tag) then 2
  else if ["japan", "jp", "asia", "ko", "ch"].any (fun tag => strContains filename_lower tag) then 4
  else 3

/-- Region priority as worded by the amended claim C4: case-insensitive
substring match of the parenthesised tags in fixed order. -/
def region_priority_paren_tags (filename : String) : Nat :=
  let filename_lower := pyLower filename
  if ["(europe)", "(en,fr,de)", "(world)"].any (fun tag => strContains filename_lower tag) then 1
  else if ["(usa)", "(us)"].any (fun tag => strContains filename_lower tag) then 2
  else if ["(japan)", "(jp)", "(asia)", "(ko)", "(ch)"].any (fun tag => strContains filename_lower tag) then 4
  else 3

/-- Counterexample to claim C4 as stated: on the filename `aus.bin` the
claimed bare-tag matching yields 2 (it contains the substring `us`), but
`get_region_priority` matches only the parenthesised tag `(us)` and yields
the default 3. -/
theorem region_priority_bare_tags_counterexample :
    region_priority_bare_tags "aus.bin" = 2 ∧
    get_region_priority "aus.bin" = 3 := by
  constructor <;> rfl

/-- Amended claim C4: `get_region_priority` performs the case-insensitive
fixed-order substring match against the PARENTHESISED tags `(europe)`,
`(en,fr,de)`, `(world)` (1), then `(usa)`, `(us)` (2), then `(japan)`,
`(jp)`, `(asia)`, `(ko)`, `(ch)` (4), else 3; the four example filenames
of the claim yield priorities 1, 2, 3, 4. -/
theorem region_priority_paren_tags_correct :
    (∀ filename, get_region_priority filename = region_priority_paren_tags filename) ∧
    get_region_priority "X (Europe).bin" = 1 ∧
    get_region_priority "X (USA).bin" = 2 ∧
    get_region_priority "X.bin" = 3 ∧
    get_region_priority "X (Japan).bin" = 4 := by
  refine ⟨fun filename => rfl, ?_, ?_, ?_, ?_⟩ <;> rfl

/-! ### Claim C5: whitespace shape of the canonical key -/

/-- Is there a run of two or more consecutive whitespace characters? -/
def wsRunPair : List Char → Bool
  | a :: b :: t => (isPySpace a && isPySpace b) || wsRunPair (b :: t)
  | _ => false

/-- Does the string contain two or more consecutive whitespace characters? -/
def hasWSRun (s : String) : Bool :=
  wsRunPair s.toList

/-- Does the string start and end with non-whitespace (or is empty)? -/
def noEdgeWS (s : String) : Bool :=
  (match s.toList.head? with
   | none => true
   | some c => !(isPySpace c)) &&
  (match s.toList.getLast? with
   | none => true
   | some c => !(isPySpace c))

theorem dropWhile_head?_false (p : Char → Bool) (l : List Char) (c : Char)
    (h : (l.dropWhile p).head? = some c) : p c = false := by
  induction l with
  | nil => simp at h
  | cons a l ih =>
    rw [List.dropWhile_cons] at h
    by_cases hp : p a = true
    · rw [if_pos hp] at h
      exact ih h
    · rw [if_neg hp] at h
      simp only [List.head?_cons, Option.some.injEq] at h
      rw [← h]
      simpa using hp

theorem dropWhile_getLast?_some (p : Char → Bool) (l : List Char) (c : Char)
    (h : (l.dropWhile p).getLast? = some c) : l.getLast? = some c := by
  induction l with
  | nil => simp at h
  | cons a l ih =>
    rw [List.dropWhile_cons] at h
    by_cases hp : p a = true
    · rw [if_pos hp] at h
      have h2 := ih h
      cases l with
      | nil => simp at h2
      | cons b t =>
        rw [List.getLast?_cons_cons]
        exact h2
    · rw [if_neg hp] at h
      exact h

theorem stripChars_head?_false (l : List Char) (c : Char)
    (h : (stripChars l).head? = some c) : isPySpace c = false := by
  unfold stripChars at h
  rw [List.head?_reverse] at h
  have h2 := dropWhile_getLast?_some isPySpace _ _ h
  rw [List.getLast?_reverse] at h2
  exact dropWhile_head?_false isPySpace _ _ h2

theorem stripChars_getLast?_false (l : List Char) (c : Char)
    (h : (stripChars l).getLast? = some c) : isPySpace c = false := by
  unfold stripChars at h
  rw [List.getLast?_reverse] at h
  exact dropWhile_head?_false isPySpace _ _ h

theorem noEdgeWS_pyStrip (s : String) : noEdgeWS (pyStrip s) = true := by
  have htl : (pyStrip s).toList = stripChars s.toList := rfl
  unfold noEdgeWS
  rw [htl]
  rw [Bool.and_eq_true]
  constructor
  · cases hh : (stripChars s.toList).head? with
    | none => rfl
    | some c => simp [stripChars_head?_false _ _ hh]
  · cases hh : (stripChars s.toList).getLast? with
    | none => rfl
    | some c => simp [stripChars_getLast?_false _ _ hh]

/-- Counterexample to claim C5 as stated: the canonical key of
`Game (USA) Extra.bin` is `Game  Extra`, which contains a run of two
consecutive spaces — the source trims the ends but never collapses
interior whitespace runs. -/
theorem normalize_whitespace_counterexample :
    normalize_game_name "Game (USA) Extra.bin" = "Game  Extra" ∧
    hasWSRun (normalize_game_name "Game (USA) Extra.bin") = true := by
  constructor <;> rfl

/-- Amended claim C5: for every input filename the canonical key returned
by `normalize_game_name` has no leading or trailing whitespace (the ends
are trimmed); interior runs of repeated whitespace are NOT collapsed. -/
theorem normalize_trimmed_ends (filename : String) :
    noEdgeWS (normalize_game_name filename) = true := by
  unfold normalize_game_name
  exact noEdgeWS_pyStrip _

/-! ### Resolver lemmas (claims C2, C3, C9, C10) -/

theorem contains_iff_mem_rom (l : List Rom) (a : Rom) :
    l.contains a = true ↔ a ∈ l := by
  simp [List.contains, List.elem_iff]

theorem find_of_filter_singleton {p : Rom → Bool} {l : List Rom} {x : Rom}
    (h : l.filter p = [x]) : l.find? p = some x := by
  induction l with
  | nil => simp at h
  | cons a t ih =>
    rw [List.filter_cons] at h
    by_cases hp : p a = true
    · rw [if_pos hp] at h
      simp only [List.cons.injEq] at h
      rw [List.find?_cons_of_pos _ hp, h.1]
    · rw [if_neg hp] at h
      rw [List.find?_cons_of_neg _ hp]
      exact ih h

theorem pickBest_mem (l : List Rom) : ∀ w : Rom, pickBest w l ∈ w :: l := by
  induction l with
  | nil =>
    intro w
    simp [pickBest]
  | cons c t ih =>
    intro w
    have hstep : pickBest w (c :: t) = pickBest (if betterThan c w = true then c else w) t := rfl
    rw [hstep]
    by_cases hc : betterThan c w = true
    · rw [if_pos hc]
      have := ih c
      rcases List.mem_cons.mp this with h1 | h2
      · rw [h1]; simp
      · exact List.mem_cons_of_mem _ (List.mem_cons_of_mem _ h2)
    · rw [if_neg hc]
      have := ih w
      rcases List.mem_cons.mp this with h1 | h2
      · rw [h1]; simp
      · exact List.mem_cons_of_mem _ (List.mem_cons_of_mem _ h2)

theorem find_best_rom_mem {l : List Rom} {r : Rom}
    (h : find_best_rom l = some r) : r ∈ l := by
  cases l with
  | nil => simp [find_best_rom] at h
  | cons w t =>
    rw [find_best_rom_cons] at h
    rw [← Option.some.injEq _ _ |>.mp h]
    exact pickBest_mem t w

theorem find_best_rom_some (l : List Rom) (h : l ≠ []) :
    ∃ r, find_best_rom l = some r := by
  cases l with
  | nil => exact absurd rfl h
  | cons w t => exact ⟨pickBest w t, find_best_rom_cons w t⟩

/-- Reduction of `mameFbneoStep` when both a mame and an fbneo record are
found. -/
theorem mameFbneoStep_eq_of_find (roms : List Rom) (m f : Rom)
    (hm : roms.find? (fun r => r.system == "mame") = some m)
    (hf : roms.find? (fun r => r.system == "fbneo") = some f) :
    mameFbneoStep roms =
      if f.region_priority = 4 ∧ m.region_priority < 4 then
        (roms.erase f, [f]) else (roms.erase m, [m]) := by
  unfold mameFbneoStep
  rw [hm, hf]

/-- The MAME/FBNeo step either does nothing (no such pair) or moves exactly
one loser taken from the group. -/
theorem mameFbneoStep_cases (roms : List Rom) :
    mameFbneoStep roms = (roms, []) ∨
    ∃ loser, loser ∈ roms ∧ mameFbneoStep roms = (roms.erase loser, [loser]) := by
  cases hm : roms.find? (fun r => r.system == "mame") with
  | none =>
    left
    unfold mameFbneoStep
    rw [hm]
  | some m =>
    cases hf : roms.find? (fun r => r.system == "fbneo") with
    | none =>
      left
      unfold mameFbneoStep
      rw [hm, hf]
    | some f =>
      right
      have heq := mameFbneoStep_eq_of_find roms m f hm hf
      by_cases hc : f.region_priority = 4 ∧ m.region_priority < 4
      · exact ⟨f, List.mem_of_find?_eq_some hf, by rw [heq, if_pos hc]⟩
      · exact ⟨m, List.mem_of_find?_eq_some hm, by rw [heq, if_neg hc]⟩

/-- Claim C2: in a group with exactly one `mame` record and exactly one
`fbneo` record, the fbneo record wins and the mame record is moved, except
when fbneo has region priority 4 and mame has priority below 4, in which
case mame wins and fbneo is moved; the loser is removed from the
candidates and the winner remains among them for the later steps. -/
theorem mame_fbneo_unique_pair_override (roms : List Rom) (m f : Rom)
    (hm : roms.filter (fun r => r.system == "mame") = [m])
    (hf : roms.filter (fun r => r.system == "fbneo") = [f]) :
    (f.region_priority = 4 ∧ m.region_priority < 4 →
      mameFbneoStep roms = (roms.erase f, [f]) ∧ m ∈ (mameFbneoStep roms).1) ∧
    (¬(f.region_priority = 4 ∧ m.region_priority < 4) →
      mameFbneoStep roms = (roms.erase m, [m]) ∧ f ∈ (mameFbneoStep roms).1) := by
  have hm' : roms.find? (fun r => r.system == "mame") = some m :=
    find_of_filter_singleton hm
  have hf' : roms.find? (fun r => r.system == "fbneo") = some f :=
    find_of_filter_singleton hf
  have hmsys : m.system = "mame" := by
    have := List.of_mem_filter (p := fun r => r.system == "mame")
      (show m ∈ roms.filter _ by rw [hm]; simp)
    simpa using this
  have hfsys : f.system = "fbneo" := by
    have := List.of_mem_filter (p := fun r => r.system == "fbneo")
      (show f ∈ roms.filter _ by rw [hf]; simp)
    simpa using this
  have hmf : m ≠ f := by
    intro he
    rw [he, hfsys] at hmsys
    exact absurd hmsys (by decide)
  have hmmem : m ∈ roms := List.mem_of_find?_eq_some hm'
  have hfmem : f ∈ roms := List.mem_of_find?_eq_some hf'
  have hstep := mameFbneoStep_eq_of_find roms m f hm' hf'
  constructor
  · intro hc
    rw [hstep, if_pos hc]
    exact ⟨rfl, (List.mem_erase_of_ne hmf).mpr hmmem⟩
  · intro hc
    rw [hstep, if_neg hc]
    exact ⟨rfl, (List.mem_erase_of_ne hmf.symm).mpr hfmem⟩

/-- Sample records for the concrete witnesses below. -/
def sampleMame : Rom :=
  { path := "roms/mame/g.zip", system := "mame", filename := "g.zip",
    year := 0, region_priority := 1, size := 50 }

def sampleFbneo : Rom :=
  { path := "roms/fbneo/g.zip", system := "fbneo", filename := "g.zip",
    year := 0, region_priority := 4, size := 50 }

/-- Witness for claim C2 at a concrete two-record group: the fbneo record
has region priority 4 and the mame record priority 1, so mame wins and the
fbneo record is the moved loser. -/
theorem mame_fbneo_unique_pair_override_witness :
    (sampleFbneo.region_priority = 4 ∧ sampleMame.region_priority < 4 →
      mameFbneoStep [sampleMame, sampleFbneo] =
        ([sampleMame, sampleFbneo].erase sampleFbneo, [sampleFbneo]) ∧
      sampleMame ∈ (mameFbneoStep [sampleMame, sampleFbneo]).1) ∧
    (¬(sampleFbneo.region_priority = 4 ∧ sampleMame.region_priority < 4) →
      mameFbneoStep [sampleMame, sampleFbneo] =
        ([sampleMame, sampleFbneo].erase sampleMame, [sampleMame]) ∧
      sampleFbneo ∈ (mameFbneoStep [sampleMame, sampleFbneo]).1) :=
  mame_fbneo_unique_pair_override [sampleMame, sampleFbneo] sampleMame sampleFbneo
    (by decide) (by decide)

/-- Claim C10: when a group contains mame and fbneo records (possibly more
than one of either), the override compares only the first-encountered mame
record and the first-encountered fbneo record (`find?` order), marks
exactly that one loser moved, and every other record of the group remains
among the candidates handed to the later resolution steps. -/
theorem mame_fbneo_first_encounter_override (roms : List Rom) (m f : Rom)
    (hm : roms.find? (fun r => r.system == "mame") = some m)
    (hf : roms.find? (fun r => r.system == "fbneo") = some f) :
    (f.region_priority = 4 ∧ m.region_priority < 4 →
      mameFbneoStep roms = (roms.erase f, [f]) ∧
      ∀ r ∈ roms, r ≠ f → r ∈ (mameFbneoStep roms).1) ∧
    (¬(f.region_priority = 4 ∧ m.region_priority < 4) →
      mameFbneoStep roms = (roms.erase m, [m]) ∧
      ∀ r ∈ roms, r ≠ m → r ∈ (mameFbneoStep roms).1) := by
  have hstep := mameFbneoStep_eq_of_find roms m f hm hf
  constructor
  · intro hc
    rw [hstep, if_pos hc]
    refine ⟨rfl, ?_⟩
    intro r hr hne
    exact (List.mem_erase_of_ne hne).mpr hr
  · intro hc
    rw [hstep, if_neg hc]
    refine ⟨rfl, ?_⟩
    intro r hr hne
    exact (List.mem_erase_of_ne hne).mpr hr

/-- A second mame and a second fbneo record for the C10 witness group. -/
def sampleMameB : Rom :=
  { path := "roms/mame/g2.zip", system := "mame", filename := "g2.zip",
    year := 0, region_priority := 3, size := 70 }

/-- See `sampleMameB`. -/
def sampleFbneoB : Rom :=
  { path := "roms/fbneo/g2.zip", system := "fbneo", filename := "g2.zip",
    year := 0, region_priority := 3, size := 70 }

/-- Witness for claim C10 at a group with two mame and two fbneo records:
the first mame (priority 1) and first fbneo (priority 4) are compared,
mame wins, and only that first fbneo record is moved. -/
theorem mame_fbneo_first_encounter_override_witness :
    (sampleFbneo.region_priority = 4 ∧ sampleMame.region_priority < 4 →
      mameFbneoStep [sampleMame, sampleMameB, sampleFbneo, sampleFbneoB] =
        ([sampleMame, sampleMameB, sampleFbneo, sampleFbneoB].erase sampleFbneo,
         [sampleFbneo]) ∧
      ∀ r ∈ [sampleMame, sampleMameB, sampleFbneo, sampleFbneoB], r ≠ sampleFbneo →
        r ∈ (mameFbneoStep [sampleMame, sampleMameB, sampleFbneo, sampleFbneoB]).1) ∧
    (¬(sampleFbneo.region_priority = 4 ∧ sampleMame.region_priority < 4) →
      mameFbneoStep [sampleMame, sampleMameB, sampleFbneo, sampleFbneoB] =
        ([sampleMame, sampleMameB, sampleFbneo, sampleFbneoB].erase sampleMame,
         [sampleMame]) ∧
      ∀ r ∈ [sampleMame, sampleMameB, sampleFbneo, sampleFbneoB], r ≠ sampleMame →
        r ∈ (mameFbneoStep [sampleMame, sampleMameB, sampleFbneo, sampleFbneoB]).1) :=
  mame_fbneo_first_encounter_override
    [sampleMame, sampleMameB, sampleFbneo, sampleFbneoB] sampleMame sampleFbneo
    (by decide) (by decide)

/-! ### Partition facts about `keptCalc` and `resolve_group` (claim C3) -/

theorem option_toList_nodup (o : Option Rom) : o.toList.Nodup := by
  cases o <;> simp

theorem keptCalc_subset (keepBoth : Bool) (cands : List Rom) :
    ∀ x ∈ keptCalc keepBoth cands, x ∈ cands := by
  intro x hx
  simp only [keptCalc] at hx
  split_ifs at hx with hcond
  · rcases List.mem_append.mp hx with hx1 | hx2
    · rcases Option.mem_toList.mp hx1 with hfb
      exact List.mem_of_mem_filter (find_best_rom_mem hfb)
    · rcases Option.mem_toList.mp hx2 with hfb
      exact List.mem_of_mem_filter (find_best_rom_mem hfb)
  · rcases Option.mem_toList.mp hx with hfb
    exact find_best_rom_mem hfb

theorem keptCalc_nodup (keepBoth : Bool) (cands : List Rom) :
    (keptCalc keepBoth cands).Nodup := by
  simp only [keptCalc]
  split_ifs with hcond
  · cases hh : find_best_rom (cands.filter (fun r => HANDHELD_SYSTEMS.contains r.system)) with
    | none => simpa using option_toList_nodup _
    | some bh =>
      cases hc : find_best_rom (cands.filter (fun r => !(HANDHELD_SYSTEMS.contains r.system))) with
      | none => simp
      | some bc =>
        have hbh : HANDHELD_SYSTEMS.contains bh.system = true :=
          List.of_mem_filter (p := fun r => HANDHELD_SYSTEMS.contains r.system)
            (find_best_rom_mem hh)
        have hbc : (!(HANDHELD_SYSTEMS.contains bc.system)) = true :=
          List.of_mem_filter (p := fun r => !(HANDHELD_SYSTEMS.contains r.system))
            (find_best_rom_mem hc)
        have hne : bh ≠ bc := by
          intro he
          rw [he] at hbh
          rw [hbh] at hbc
          exact absurd hbc (by decide)
        simp [List.nodup_cons, hne]
  · exact option_toList_nodup _

theorem keptCalc_ne_nil (keepBoth : Bool) (cands : List Rom) (h : cands ≠ []) :
    keptCalc keepBoth cands ≠ [] := by
  simp only [keptCalc]
  split_ifs with hcond
  · have hne : cands.filter (fun r => HANDHELD_SYSTEMS.contains r.system) ≠ [] := by
      intro he
      rw [Bool.and_eq_true, Bool.and_eq_true] at hcond
      have h1 := hcond.1.1
      rw [he] at h1
      simp at h1
    obtain ⟨bh, hbh⟩ := find_best_rom_some _ hne
    rw [hbh]
    simp
  · obtain ⟨b, hb⟩ := find_best_rom_some cands h
    rw [hb]
    simp

theorem length_filter_contains (cands kept : List Rom)
    (hnd : cands.Nodup) (hknd : kept.Nodup) (hsub : ∀ x ∈ kept, x ∈ cands) :
    (cands.filter (fun c => kept.contains c)).length = kept.length := by
  have hperm : (cands.filter (fun c => kept.contains c)).Perm kept := by
    rw [List.perm_ext_iff_of_nodup (hnd.filter _) hknd]
    intro a
    simp only [List.mem_filter]
    constructor
    · rintro ⟨_, hc⟩
      exact (contains_iff_mem_rom kept a).mp hc
    · intro ha
      exact ⟨hsub a ha, (contains_iff_mem_rom kept a).mpr ha⟩
  exact hperm.length_eq

theorem keptCalc_partition (keepBoth : Bool) (cands : List Rom)
    (hnd : cands.Nodup) :
    (keptCalc keepBoth cands).length
      + (cands.filter (fun c => !((keptCalc keepBoth cands).contains c))).length
      = cands.length ∧
    (∀ r ∈ keptCalc keepBoth cands,
        r ∉ cands.filter (fun c => !((keptCalc keepBoth cands).contains c))) ∧
    (∀ r ∈ cands, r ∈ keptCalc keepBoth cands ∨
        r ∈ cands.filter (fun c => !((keptCalc keepBoth cands).contains c))) := by
  refine ⟨?_, ?_, ?_⟩
  · have h1 := List.length_eq_length_filter_add
      (l := cands) (fun c => (keptCalc keepBoth cands).contains c)
    have h2 := length_filter_contains cands (keptCalc keepBoth cands) hnd
      (keptCalc_nodup keepBoth cands) (keptCalc_subset keepBoth cands)
    omega
  · intro r hr hmem
    have h1 := List.of_mem_filter hmem
    rw [Bool.not_eq_eq_eq_not, Bool.not_true] at h1
    rw [← contains_iff_mem_rom (keptCalc keepBoth cands) r] at hr
    rw [h1] at hr
    exact absurd hr (by decide)
  · intro r hr
    by_cases hk : r ∈ keptCalc keepBoth cands
    · exact Or.inl hk
    · refine Or.inr (List.mem_filter.mpr ⟨hr, ?_⟩)
      rw [Bool.not_eq_eq_eq_not, Bool.not_true]
      rw [← contains_iff_mem_rom (keptCalc keepBoth cands) r] at hk
      simpa using hk

/-- Reduction of `resolve_group` in the two control-flow cases. -/
theorem resolve_group_eq (keepBoth : Bool) (roms : List Rom) :
    resolve_group keepBoth roms =
      (if (mameFbneoStep roms).1.length ≤ 1 then
        { kept := (mameFbneoStep roms).1, moved := (mameFbneoStep roms).2 }
      else
        { kept := keptCalc keepBoth (mameFbneoStep roms).1,
          moved := (mameFbneoStep roms).2 ++ (mameFbneoStep roms).1.filter
            (fun c => !((keptCalc keepBoth (mameFbneoStep roms).1).contains c)) }) := rfl

/-- Kept component of `resolve_group` when the MAME/FBNeo step leaves at
most one candidate: the remainder is kept. -/
theorem resolve_group_small_kept (keepBoth : Bool) (roms cands mv : List Rom)
    (hstep : mameFbneoStep roms = (cands, mv)) (hc : cands.length ≤ 1) :
    (resolve_group keepBoth roms).kept = cands := by
  rw [resolve_group_eq, hstep, if_pos hc]

/-- Moved component in the same case: only the MAME/FBNeo loser moves. -/
theorem resolve_group_small_moved (keepBoth : Bool) (roms cands mv : List Rom)
    (hstep : mameFbneoStep roms = (cands, mv)) (hc : cands.length ≤ 1) :
    (resolve_group keepBoth roms).moved = mv := by
  rw [resolve_group_eq, hstep, if_pos hc]

/-- Kept component of `resolve_group` when at least two candidates remain
after the MAME/FBNeo step. -/
theorem resolve_group_main_kept (keepBoth : Bool) (roms cands mv : List Rom)
    (hstep : mameFbneoStep roms = (cands, mv)) (hc : ¬(cands.length ≤ 1)) :
    (resolve_group keepBoth roms).kept = keptCalc keepBoth cands := by
  rw [resolve_group_eq, hstep, if_neg hc]

/-- Moved component in the same case. -/
theorem resolve_group_main_moved (keepBoth : Bool) (roms cands mv : List Rom)
    (hstep : mameFbneoStep roms = (cands, mv)) (hc : ¬(cands.length ≤ 1)) :
    (resolve_group keepBoth roms).moved =
      mv ++ cands.filter (fun c => !((keptCalc keepBoth cands).contains c)) := by
  rw [resolve_group_eq, hstep, if_neg hc]

/-- Claim C3: for every title group with at least two pairwise-distinct
records, the kept records and the moved records of `resolve_group` are
disjoint, jointly exhaust the group, both consist of group members, their
lengths sum to the group size, and the kept list is non-empty. -/
theorem resolve_group_partition (keepBoth : Bool) (roms : List Rom)
    (hnd : roms.Nodup) (hlen : 2 ≤ roms.length) :
    ((resolve_group keepBoth roms).kept.length
       + (resolve_group keepBoth roms).moved.length = roms.length) ∧
    (∀ r ∈ (resolve_group keepBoth roms).kept,
        r ∉ (resolve_group keepBoth roms).moved) ∧
    (∀ r ∈ roms, r ∈ (resolve_group keepBoth roms).kept ∨
        r ∈ (resolve_group keepBoth roms).moved) ∧
    (∀ r ∈ (resolve_group keepBoth roms).kept, r ∈ roms) ∧
    (∀ r ∈ (resolve_group keepBoth roms).moved, r ∈ roms) ∧
    (resolve_group keepBoth roms).kept ≠ [] := by
  have hrne : roms ≠ [] := by
    intro he
    rw [he] at hlen
    simp at hlen
  rcases mameFbneoStep_cases roms with hstep | ⟨loser, hlmem, hstep⟩
  · -- no mame/fbneo pair: the candidates are the whole group
    have hcond : ¬(roms.length ≤ 1) := by omega
    rw [resolve_group_main_kept keepBoth roms roms [] hstep hcond,
        resolve_group_main_moved keepBoth roms roms [] hstep hcond,
        List.nil_append]
    obtain ⟨hsum, hdisj, hcover⟩ := keptCalc_partition keepBoth roms hnd
    exact ⟨hsum, hdisj, hcover,
      fun r hr => keptCalc_subset keepBoth roms r hr,
      fun r hr => List.mem_of_mem_filter hr,
      keptCalc_ne_nil keepBoth roms hrne⟩
  · -- the mame/fbneo rule moved `loser`
    have hnd2 : (roms.erase loser).Nodup := hnd.erase loser
    have hlen2 : (roms.erase loser).length + 1 = roms.length :=
      List.length_erase_add_one hlmem
    have hloser_not : loser ∉ roms.erase loser := hnd.not_mem_erase
    have hsub2 : ∀ r ∈ roms.erase loser, r ∈ roms := fun r hr =>
      List.erase_subset loser roms hr
    have hcover2 : ∀ r ∈ roms, r = loser ∨ r ∈ roms.erase loser := by
      intro r hr
      by_cases he : r = loser
      · exact Or.inl he
      · exact Or.inr ((List.mem_erase_of_ne he).mpr hr)
    by_cases hc : (roms.erase loser).length ≤ 1
    · -- early exit: one candidate remains, it is kept
      rw [resolve_group_small_kept keepBoth roms (roms.erase loser) [loser] hstep hc,
          resolve_group_small_moved keepBoth roms (roms.erase loser) [loser] hstep hc]
      refine ⟨?_, ?_, ?_, hsub2, ?_, ?_⟩
      · simp only [List.length_singleton]
        omega
      · intro r hr
        simp only [List.mem_singleton]
        intro he
        rw [he] at hr
        exact hloser_not hr
      · intro r hr
        rcases hcover2 r hr with h1 | h2
        · exact Or.inr (by simp [h1])
        · exact Or.inl h2
      · intro r hr
        simp only [List.mem_singleton] at hr
        rw [hr]
        exact hlmem
      · have hpos : 0 < (roms.erase loser).length := by omega
        exact List.length_pos.mp hpos
    · -- main resolution on the remaining candidates
      have hne2 : roms.erase loser ≠ [] := by
        intro he
        apply hc
        rw [he]
        simp
      rw [resolve_group_main_kept keepBoth roms (roms.erase loser) [loser] hstep hc,
          resolve_group_main_moved keepBoth roms (roms.erase loser) [loser] hstep hc,
          List.singleton_append]
      obtain ⟨hsum, hdisj, hcover⟩ := keptCalc_partition keepBoth (roms.erase loser) hnd2
      refine ⟨?_, ?_, ?_, ?_, ?_, ?_⟩
      · simp only [List.length_cons]
        omega
      · intro r hr
        rw [List.mem_cons]
        rintro (h1 | h2)
        · rw [h1] at hr
          exact hloser_not (keptCalc_subset keepBoth _ loser hr)
        · exact hdisj r hr h2
      · intro r hr
        rcases hcover2 r hr with h1 | h2
        · exact Or.inr (by simp [h1])
        · rcases hcover r h2 with h3 | h4
          · exact Or.inl h3
          · exact Or.inr (List.mem_cons_of_mem _ h4)
      · intro r hr
        exact hsub2 r (keptCalc_subset keepBoth _ r hr)
      · intro r hr
        rcases List.mem_cons.mp hr with h1 | h2
        · rw [h1]; exact hlmem
        · exact hsub2 r (List.mem_of_mem_filter h2)
      · exact keptCalc_ne_nil keepBoth _ hne2

/-- Witness for claim C3 at a concrete two-record group. -/
theorem resolve_group_partition_witness :
    ((resolve_group true [sampleMame, sampleFbneo]).kept.length
       + (resolve_group true [sampleMame, sampleFbneo]).moved.length
       = [sampleMame, sampleFbneo].length) ∧
    (∀ r ∈ (resolve_group true [sampleMame, sampleFbneo]).kept,
        r ∉ (resolve_group true [sampleMame, sampleFbneo]).moved) ∧
    (∀ r ∈ [sampleMame, sampleFbneo],
        r ∈ (resolve_group true [sampleMame, sampleFbneo]).kept ∨
        r ∈ (resolve_group true [sampleMame, sampleFbneo]).moved) ∧
    (∀ r ∈ (resolve_group true [sampleMame, sampleFbneo]).kept,
        r ∈ [sampleMame, sampleFbneo]) ∧
    (∀ r ∈ (resolve_group true [sampleMame, sampleFbneo]).moved,
        r ∈ [sampleMame, sampleFbneo]) ∧
    (resolve_group true [sampleMame, sampleFbneo]).kept ≠ [] :=
  resolve_group_partition true [sampleMame, sampleFbneo] (by decide) (by decide)

/-! ### Claim C9: the handheld/console configuration split -/

/-- With the keep-both flag set and both partitions inhabited, `keptCalc`
is the union of the two partition winners. -/
theorem keptCalc_true_of_mixed (cands : List Rom)
    (hh : cands.filter (fun r => HANDHELD_SYSTEMS.contains r.system) ≠ [])
    (hcons : cands.filter (fun r => !(HANDHELD_SYSTEMS.contains r.system)) ≠ []) :
    keptCalc true cands =
      (find_best_rom (cands.filter (fun r => HANDHELD_SYSTEMS.contains r.system))).toList ++
      (find_best_rom (cands.filter (fun r => !(HANDHELD_SYSTEMS.contains r.system)))).toList := by
  simp only [keptCalc]
  rw [if_pos]
  rw [Bool.and_true, Bool.and_eq_true]
  constructor
  · cases hfe : (cands.filter (fun r => HANDHELD_SYSTEMS.contains r.system)).isEmpty with
    | true => exact absurd (List.isEmpty_iff.mp hfe) hh
    | false => rfl
  · cases hfe : (cands.filter (fun r => !(HANDHELD_SYSTEMS.contains r.system))).isEmpty with
    | true => exact absurd (List.isEmpty_iff.mp hfe) hcons
    | false => rfl

/-- With the keep-both flag cleared, `keptCalc` resolves the single pool. -/
theorem keptCalc_false_single_pool (cands : List Rom) :
    keptCalc false cands = (find_best_rom cands).toList := by
  simp only [keptCalc]
  rw [if_neg]
  simp

/-- Claim C9: when the remaining candidates of a group contain at least
one handheld-system record and at least one other record, the keep-both
configuration resolves the two partitions independently and keeps both
winners (a two-element kept list), while the disabled configuration keeps
exactly the single winner of the whole pool. -/
theorem handheld_console_split (roms : List Rom)
    (hlen : ¬((mameFbneoStep roms).1.length ≤ 1))
    (hh : (mameFbneoStep roms).1.filter (fun r => HANDHELD_SYSTEMS.contains r.system) ≠ [])
    (hcons : (mameFbneoStep roms).1.filter (fun r => !(HANDHELD_SYSTEMS.contains r.system)) ≠ []) :
    (∃ bh bc,
      find_best_rom ((mameFbneoStep roms).1.filter
        (fun r => HANDHELD_SYSTEMS.contains r.system)) = some bh ∧
      find_best_rom ((mameFbneoStep roms).1.filter
        (fun r => !(HANDHELD_SYSTEMS.contains r.system))) = some bc ∧
      (resolve_group true roms).kept = [bh, bc]) ∧
    (∃ b, find_best_rom (mameFbneoStep roms).1 = some b ∧
      (resolve_group false roms).kept = [b]) := by
  have hstep : mameFbneoStep roms = ((mameFbneoStep roms).1, (mameFbneoStep roms).2) := rfl
  obtain ⟨bh, hbh⟩ := find_best_rom_some _ hh
  obtain ⟨bc, hbc⟩ := find_best_rom_some _ hcons
  have hpool : (mameFbneoStep roms).1 ≠ [] := by
    intro he
    apply hlen
    rw [he]
    simp
  obtain ⟨b, hb⟩ := find_best_rom_some _ hpool
  constructor
  · refine ⟨bh, bc, hbh, hbc, ?_⟩
    rw [resolve_group_main_kept true roms (mameFbneoStep roms).1 (mameFbneoStep roms).2
        hstep hlen]
    rw [keptCalc_true_of_mixed _ hh hcons, hbh, hbc]
    rfl
  · refine ⟨b, hb, ?_⟩
    rw [resolve_group_main_kept false roms (mameFbneoStep roms).1 (mameFbneoStep roms).2
        hstep hlen]
    rw [keptCalc_false_single_pool, hb]
    rfl

/-- A handheld-system record for the C9 witness. -/
def sampleGba : Rom :=
  { path := "roms/gba/z.zip", system := "gba", filename := "z.zip",
    year := 0, region_priority := 2, size := 10 }

/-- A console-system record for the C9 witness. -/
def sampleSnes : Rom :=
  { path := "roms/snes/z.zip", system := "snes", filename := "z.zip",
    year := 0, region_priority := 2, size := 20 }

/-- Witness for claim C9 at a concrete one-gba/one-snes group. -/
theorem handheld_console_split_witness :
    (∃ bh bc,
      find_best_rom ((mameFbneoStep [sampleGba, sampleSnes]).1.filter
        (fun r => HANDHELD_SYSTEMS.contains r.system)) = some bh ∧
      find_best_rom ((mameFbneoStep [sampleGba, sampleSnes]).1.filter
        (fun r => !(HANDHELD_SYSTEMS.contains r.system))) = some bc ∧
      (resolve_group true [sampleGba, sampleSnes]).kept = [bh, bc]) ∧
    (∃ b, find_best_rom (mameFbneoStep [sampleGba, sampleSnes]).1 = some b ∧
      (resolve_group false [sampleGba, sampleSnes]).kept = [b]) :=
  handheld_console_split [sampleGba, sampleSnes] (by decide) (by decide) (by decide)

/-! ### `find_roms` (source lines 249-291)

The directory walk is modelled by its result: one `DirEntry` per visited
directory (symlinked directories and the quarantine directory are already
excluded by the walk), carrying the directory path, the extension list
resolved by `get_supported_extensions` (an external per-directory lookup:
it reads `systeminfo.txt`, with the fixed default list as fallback), the
regular files in walk order with their on-disk sizes. -/

/-- Configuration constants of the source (lines 41-54). -/
def DRY_RUN : Bool := true

/-- See `DRY_RUN`. -/
def ROMS_PATH : String := "roms"

/-- See `DRY_RUN`. -/
def DUPLICATES_PATH : String := "roms/duplicates"

/-- See `DRY_RUN`. -/
def KEEP_HANDHELD_AND_CONSOLE_DUPLICATES : Bool := true

/-- One directory of the walk, as consumed by `find_roms`. -/
structure DirEntry where
  root : String
  extensions : List String
  files : List (String × Nat)
deriving DecidableEq

/-- `os.path.basename`: the part after the last slash. -/
def basenameStr (p : String) : String :=
  String.mk ((p.toList.reverse.takeWhile (fun c => c ≠ '/')).reverse)

/-- `os.path.join(a, b)` for the shapes arising here: an absolute second
component replaces the first; otherwise the components are joined with a
single slash. -/
def pyJoin (a b : String) : String :=
  if b.startsWith "/" then b
  else if a = "" then b
  else if a.endsWith "/" then a ++ b
  else a ++ "/" ++ b

/-- `any(file.lower().endswith(ext) for ext in extensions)` (line 272). -/
def extOk (extensions : List String) (file : String) : Bool :=
  extensions.any (fun ext => endsWithChars ext.toList (pyLower file).toList)

/-- The record built for one accepted file (source lines 283-290). -/
def rom_of (root : String) (file : String) (size : Nat) : Rom :=
  { path := pyJoin root file
    system := basenameStr root
    filename := file
    year := yearOf file
    region_priority := get_region_priority file
    size := size }

/-- `games[normalized_name].append(record)` with dict insertion order:
append to the existing group or open a new group at the end. -/
def addToGroup (games : List (String × List Rom)) (key : String) (r : Rom) :
    List (String × List Rom) :=
  match games with
  | [] => [(key, [r])]
  | (k, rs) :: rest =>
    if k = key then (k, rs ++ [r]) :: rest
    else (k, rs) :: addToGroup rest key r

/-- The inner loop of `find_roms` over the files of one directory. -/
def scanFiles (root : String) (extensions : List String) :
    List (String × Nat) → List (String × List Rom) → List (String × List Rom)
  | [], games => games
  | f :: fs, games =>
    scanFiles root extensions fs
      (if extOk extensions f.1 then
        addToGroup games (normalize_game_name f.1) (rom_of root f.1 f.2)
      else games)

/-- The walk of `find_roms` over all directories. -/
def findRomsAux : List DirEntry → List (String × List Rom) → List (String × List Rom)
  | [], games => games
  | d :: ds, games => findRomsAux ds (scanFiles d.root d.extensions d.files games)

/-- `find_roms`: group every accepted file of the walk under its canonical
key, in insertion order. -/
def find_roms (dirs : List DirEntry) : List (String × List Rom) :=
  findRomsAux dirs []

/-- Dict lookup (`games[key]`); `[]` when the key is absent. -/
def groupOf (games : List (String × List Rom)) (key : String) : List Rom :=
  match games with
  | [] => []
  | (k, rs) :: rest => if k = key then rs else groupOf rest key

/-! ### Claim C6: files with an empty canonical key -/

theorem groupOf_addToGroup_same (games : List (String × List Rom)) (key : String) (r : Rom) :
    groupOf (addToGroup games key r) key = groupOf games key ++ [r] := by
  induction games with
  | nil => simp [addToGroup, groupOf]
  | cons g rest ih =>
    obtain ⟨k, rs⟩ := g
    by_cases hk : k = key
    · simp [addToGroup, groupOf, hk]
    · simp [addToGroup, groupOf, hk, ih]

theorem groupOf_addToGroup_other (games : List (String × List Rom))
    (key other : String) (r : Rom) (hne : other ≠ key) :
    groupOf (addToGroup games other r) key = groupOf games key := by
  induction games with
  | nil => simp [addToGroup, groupOf, hne]
  | cons g rest ih =>
    obtain ⟨k, rs⟩ := g
    by_cases hk : k = other
    · subst hk
      simp [addToGroup, groupOf, hne]
    · simp [addToGroup, groupOf, hk, ih]

theorem groupOf_addToGroup_mono (games : List (String × List Rom))
    (key other : String) (r x : Rom) (hx : x ∈ groupOf games key) :
    x ∈ groupOf (addToGroup games other r) key := by
  by_cases he : other = key
  · subst he
    rw [groupOf_addToGroup_same]
    exact List.mem_append_left _ hx
  · rw [groupOf_addToGroup_other games key other r he]
    exact hx

theorem groupOf_scanFiles_mono (root : String) (extensions : List String)
    (files : List (String × Nat)) :
    ∀ games key x, x ∈ groupOf games key →
      x ∈ groupOf (scanFiles root extensions files games) key := by
  induction files with
  | nil => intro games key x hx; exact hx
  | cons f fs ih =>
    intro games key x hx
    simp only [scanFiles]
    apply ih
    by_cases hok : extOk extensions f.1 = true
    · rw [if_pos hok]
      exact groupOf_addToGroup_mono games key _ _ x hx
    · rw [if_neg hok]
      exact hx

theorem groupOf_scanFiles_mem (root : String) (extensions : List String)
    (files : List (String × Nat)) :
    ∀ games f, f ∈ files → extOk extensions f.1 = true →
      rom_of root f.1 f.2 ∈
        groupOf (scanFiles root extensions files games) (normalize_game_name f.1) := by
  induction files with
  | nil => intro games f hf; simp at hf
  | cons g fs ih =>
    intro games f hf hok
    rcases List.mem_cons.mp hf with h1 | h2
    · subst h1
      simp only [scanFiles, if_pos hok]
      apply groupOf_scanFiles_mono
      rw [groupOf_addToGroup_same]
      exact List.mem_append_right _ (by simp)
    · simp only [scanFiles]
      exact ih _ f h2 hok

theorem groupOf_findRomsAux_mono (dirs : List DirEntry) :
    ∀ games key x, x ∈ groupOf games key →
      x ∈ groupOf (findRomsAux dirs games) key := by
  induction dirs with
  | nil => intro games key x hx; exact hx
  | cons d ds ih =>
    intro games key x hx
    exact ih _ key x (groupOf_scanFiles_mono d.root d.extensions d.files games key x hx)

theorem groupOf_findRomsAux_mem (dirs : List DirEntry) :
    ∀ games d f, d ∈ dirs → f ∈ d.files → extOk d.extensions f.1 = true →
      rom_of d.root f.1 f.2 ∈
        groupOf (findRomsAux dirs games) (normalize_game_name f.1) := by
  induction dirs with
  | nil => intro games d f hd; simp at hd
  | cons e ds ih =>
    intro games d f hd hf hok
    rcases List.mem_cons.mp hd with h1 | h2
    · subst h1
      exact groupOf_findRomsAux_mono ds _ _ _
        (groupOf_scanFiles_mem d.root d.extensions d.files games f hf hok)
    · exact ih _ d f h2 hf hok

/-- Counterexample to claim C6 as stated: scanning one directory holding
the accepted file `(USA).zip`, whose name normalizes to the empty string,
produces a title group keyed by the empty canonical key containing that
file — the scanner does not exclude such files. -/
theorem empty_key_grouped_counterexample :
    normalize_game_name "(USA).zip" = "" ∧
    groupOf (find_roms [{ root := "roms/nes", extensions := [".zip"],
                          files := [("(USA).zip", 100)] }]) "" =
      [rom_of "roms/nes" "(USA).zip" 100] := by
  constructor <;> rfl

/-- Amended claim C6: an accepted file whose filename normalizes to the
empty string is NOT excluded from grouping: like every accepted file, it
is placed in the title group keyed by its canonical key, here the empty
key. -/
theorem empty_key_still_grouped (dirs : List DirEntry) (d : DirEntry)
    (f : String × Nat) (hd : d ∈ dirs) (hf : f ∈ d.files)
    (hok : extOk d.extensions f.1 = true)
    (hkey : normalize_game_name f.1 = "") :
    rom_of d.root f.1 f.2 ∈ groupOf (find_roms dirs) "" := by
  have h := groupOf_findRomsAux_mem dirs [] d f hd hf hok
  rw [hkey] at h
  exact h

/-- Witness for the amended claim C6 at the concrete one-file scan. -/
theorem empty_key_still_grouped_witness :
    rom_of "roms/nes" "(USA).zip" 100 ∈
      groupOf (find_roms [{ root := "roms/nes", extensions := [".zip"],
                            files := [("(USA).zip", 100)] }]) "" :=
  empty_key_still_grouped
    [{ root := "roms/nes", extensions := [".zip"], files := [("(USA).zip", 100)] }]
    { root := "roms/nes", extensions := [".zip"], files := [("(USA).zip", 100)] }
    ("(USA).zip", 100) (by simp) (by simp) (by decide) (by decide)

/-! ### `move_duplicate` and the run model (claims C7, C8) -/

/-- Split a path at slashes. -/
def splitSlashAux : List Char → List Char → List String
  | [], acc => [String.mk acc.reverse]
  | c :: t, acc =>
    if c = '/' then String.mk acc.reverse :: splitSlashAux t []
    else splitSlashAux t (c :: acc)

/-- See `splitSlashAux`. -/
def splitSlash (p : String) : List String :=
  splitSlashAux p.toList []

/-- Drop the common prefix of two component lists. -/
def dropCommon : List String → List String → List String × List String
  | a :: as, b :: bs =>
    if a = b then dropCommon as bs else (a :: as, b :: bs)
  | as, bs => (as, bs)

/-- Join path components with slashes. -/
def joinSlash : List String → String
  | [] => ""
  | [x] => x
  | x :: xs => x ++ "/" ++ joinSlash xs

/-- `os.path.relpath(path, start)` for two paths below one working
directory (the source only calls it with a file inside `ROMS_PATH`):
drop the common leading components, then climb with `..` for what is left
of `start` and descend into what is left of `path`. -/
def relpath (p start : String) : String :=
  let pc := (splitSlash p).filter (fun s => s ≠ "" && s ≠ ".")
  let sc := (splitSlash start).filter (fun s => s ≠ "" && s ≠ ".")
  let rest := dropCommon pc sc
  let parts := List.replicate rest.2.length ".." ++ rest.1
  if parts.isEmpty then "." else joinSlash parts

/-- `os.path.dirname`: everything before the last slash. -/
def dirnameStr (p : String) : String :=
  String.mk (((p.toList.reverse.dropWhile (fun c => c ≠ '/')).drop 1).reverse)

/-- Explicit filesystem state: the regular files (by path) and the
directories present. -/
structure FS where
  files : List String
  dirs : List String
deriving DecidableEq

/-- `move_duplicate(file_path)` (source lines 425-439), with the global
`DRY_RUN` flag passed explicitly and the filesystem state threaded.  In
the real branch `os.makedirs(..., exist_ok=True)` records the destination
directory and `shutil.move` relocates the file; in the dry branch nothing
is touched.  The string list models the printed report lines (the source
wraps the paths in quotes). -/
def move_duplicate (dryRun : Bool) (file_path : String) (fs : FS) : FS × List String :=
  if !dryRun then
    let relative_path := relpath file_path ROMS_PATH
    let dest_path := pyJoin DUPLICATES_PATH relative_path
    ({ files := (fs.files.filter (fun q => q ≠ file_path)) ++ [dest_path],
       dirs := fs.dirs ++ [dirnameStr dest_path] },
     ["Moved " ++ file_path ++ " to " ++ dest_path])
  else
    (fs, ["[DRY RUN] Would move " ++ file_path])

/-- Sequential execution of the moves requested by the resolver, in the
order the source issues them. -/
def run_moves (dryRun : Bool) : List String → FS → FS × List String
  | [], fs => (fs, [])
  | p :: ps, fs =>
    let step := move_duplicate dryRun p fs
    let rest := run_moves dryRun ps step.1
    (rest.1, step.2 ++ rest.2)

/-- The paths moved by `resolve_duplicates` over all groups, in move
order. -/
def moved_paths (keepBoth : Bool) (games : List (String × List Rom)) : List String :=
  (resolve_duplicates keepBoth games).map (fun r => r.path)

/-- A full run over already-scanned groups (the mutating part of `main`,
source lines 450-459): outside dry-run mode the quarantine directory is
created first when absent; then every duplicate chosen by the resolver is
moved. -/
def dedupe_run (dryRun keepBoth : Bool) (games : List (String × List Rom)) (fs : FS) :
    FS × List String :=
  let fs1 :=
    if !dryRun && !(fs.dirs.contains DUPLICATES_PATH) then
      { fs with dirs := fs.dirs ++ [DUPLICATES_PATH] }
    else fs
  run_moves dryRun (moved_paths keepBoth games) fs1

/-- Claim C8: with the dry-run flag enabled, a full run performs no
filesystem mutation whatsoever — the file set and the directory set are
returned unchanged, so no file is moved, no destination directory is
created, and every source file remains present at its original path —
while the log still reports one intended move per resolved duplicate. -/
theorem dry_run_no_mutation (keepBoth : Bool) (games : List (String × List Rom)) (fs : FS) :
    (dedupe_run true keepBoth games fs).1 = fs ∧
    (dedupe_run true keepBoth games fs).2 =
      (moved_paths keepBoth games).map (fun p => "[DRY RUN] Would move " ++ p) ∧
    (∀ f ∈ fs.files, f ∈ (dedupe_run true keepBoth games fs).1.files) ∧
    (dedupe_run true keepBoth games fs).1.dirs = fs.dirs := by
  have hrun : ∀ (ps : List String) (fs0 : FS),
      run_moves true ps fs0 = (fs0, ps.map (fun p => "[DRY RUN] Would move " ++ p)) := by
    intro ps
    induction ps with
    | nil => intro fs0; rfl
    | cons p ps ih =>
      intro fs0
      show ((run_moves true ps fs0).1,
            (move_duplicate true p fs0).2 ++ (run_moves true ps fs0).2) = _
      rw [ih fs0]
      rfl
  have hd : dedupe_run true keepBoth games fs =
      run_moves true (moved_paths keepBoth games) fs := rfl
  rw [hd, hrun]
  exact ⟨rfl, rfl, fun f hf => hf, rfl⟩

/-! ### Claim C7: the process exit status of `main` -/

/-- Exit-status model of `main` (source lines 442-463).  When the ROM root
is not a directory, `main` prints an error message and returns normally,
so the Python process exits with status 0, and `find_roms` is never
reached.  Otherwise the run proceeds; an exception raised by a failing
`shutil.move` propagates uncaught out of `main` and terminates the
interpreter with a non-zero status, while a run without failure (even one
finding zero duplicates) exits 0.  The first component is the exit
status, the second records whether scanning was reached. -/
def main_model (romsDirExists : Bool) (relocationRaises : Bool) : Nat × Bool :=
  if !romsDirExists then (0, false)
  else if relocationRaises then (1, true)
  else (0, true)

/-- Exit status of the modelled run. -/
def main_exit (romsDirExists relocationRaises : Bool) : Nat :=
  (main_model romsDirExists relocationRaises).1

/-- Whether the modelled run reaches the scanning phase. -/
def main_scans (romsDirExists relocationRaises : Bool) : Bool :=
  (main_model romsDirExists relocationRaises).2

/-- Counterexample to claim C7 as stated: with the source root missing the
process exit status is 0, not non-zero — `main` prints the error and
returns normally instead of signalling failure. -/
theorem main_exit_missing_root_counterexample :
    main_exit false false = 0 := rfl

/-- Amended claim C7: the process exit status is zero on a successful run
(including when zero duplicates are found) AND ALSO zero when the source
root does not exist — that case still aborts before any scanning — while
an uncaught relocation failure terminates the process non-zero. -/
theorem main_exit_amended :
    (∀ b, main_exit false b = 0 ∧ main_scans false b = false) ∧
    main_exit true false = 0 ∧ main_scans true false = true ∧
    main_exit true true = 1 := by
  refine ⟨fun b => ?_, rfl, rfl, rfl⟩
  cases b <;> exact ⟨rfl, rfl⟩

end DedupeRoms
